import Mathlib

/-!
Verification development for the archtest scanner core (src/index.js, second
module copy, lines 503-1159).  Paths are modelled as lists of POSIX segments
(segments are nonempty and contain no slash); a path string is recovered by
joining the segments with "/".  Machine strings are Lean `String`s; JS `Set`
and `Map` are modelled as deduplicating lists and insertion-ordered
association lists, which is exactly the iteration order JS guarantees.
-/

namespace Archtest

/-- Split a character list on a separator character; mirrors the JS
String.prototype.split with a single-character separator (an empty input
yields one empty field, separators at the ends yield empty fields). -/
def splitCharsOn (sep : Char) : List Char → List (List Char)
  | [] => [[]]
  | c :: rest =>
    let r := splitCharsOn sep rest
    if c = sep then [] :: r
    else
      match r with
      | h :: t => (c :: h) :: t
      | [] => [[c]]

/-- String split on a single-character separator (kernel-evaluable stand-in
for String.splitOn with that separator). -/
def splitOnChar (sep : Char) (s : String) : List String :=
  (splitCharsOn sep s.toList).map String.mk

/-- Split a path string on "/". -/
def splitOnSlash (s : String) : List String :=
  splitOnChar '/' s

/-- Character-list prefix test. -/
def listIsPre : List Char → List Char → Bool
  | [], _ => true
  | _ :: _, [] => false
  | a :: as, b :: bs => a = b && listIsPre as bs

/-- Kernel-evaluable stand-in for String.startsWith: pre is a literal
prefix of s. -/
def strStartsWith (s pre : String) : Bool :=
  listIsPre pre.toList s.toList

/-- Lexicographic character-list comparison — the JS "<" on strings
(code-unit order; identical to code-point order on the names involved). -/
def charsLt : List Char → List Char → Bool
  | [], [] => false
  | [], _ :: _ => true
  | _ :: _, [] => false
  | a :: as, b :: bs => if a < b then true else if b < a then false else charsLt as bs

/-- The JS string comparison sourceDir < targetDir. -/
def strLt (a b : String) : Bool :=
  charsLt a.toList b.toList

/-- Join path segments with "/" — the string form of a relative path. -/
def joinSegs (segs : List String) : String :=
  match segs with
  | [] => ""
  | s :: rest => rest.foldl (fun acc t => acc ++ "/" ++ t) s

/-- Normalisation step of node's path.resolve / path.normalize over segment
lists: "" and "." segments are dropped, ".." pops the last accumulated
segment (and is dropped at the root, as path.resolve does). -/
def normAux (acc : List String) : List String → List String
  | [] => acc
  | s :: rest =>
    if s = "" ∨ s = "." then normAux acc rest
    else if s = ".." then normAux acc.dropLast rest
    else normAux (acc ++ [s]) rest

/-- Drop the longest common leading run of two segment lists; returns the two
remainders.  Used to model node's path.relative. -/
def dropCommon : List String → List String → List String × List String
  | a :: as, b :: bs => if a = b then dropCommon as bs else (a :: as, b :: bs)
  | as, bs => (as, bs)

/-- node's path.relative over normalized absolute segment lists: climb out of
what remains of the base with ".." segments, then descend into the target. -/
def relativeSegs (base target : List String) : List String :=
  let p := dropCommon base target
  List.replicate p.1.length ".." ++ p.2

/-- Model of the source's rel.startsWith("..") test on the joined string: the
joined string starts with ".." exactly when the first segment does (segments
contain no slash, and "/" cannot begin ".."). -/
def escapesBase (relSegs : List String) : Bool :=
  match relSegs with
  | [] => false
  | s :: _ => strStartsWith s ".."

/-- node's path.join for the shapes the source uses (left side a normalized
relative path string, right side a plain file name). -/
def joinRel (a b : String) : String :=
  if a = "" then b else a ++ "/" ++ b

/-- node's path.extname on a basename: the substring from the last "." to the
end, empty when there is no dot or the only dot is leading ("." and ".."
yield ""). -/
def extname (s : String) : String :=
  if s = "." ∨ s = ".." then ""
  else
    let parts := splitOnChar '.' s
    if parts.length ≤ 1 then ""
    else
      let last := parts.getLastD ""
      if last.length + 1 < s.length then "." ++ last else ""

/-- The source's top-level-directory computation (index.js lines 1075-1079):
first path segment when the path has more than one segment, "." otherwise. -/
def topDirOf (p : String) : String :=
  let parts := splitOnSlash p
  if parts.length > 1 then parts.headD "" else "."

/-- node's path.dirname on a relative path string: everything before the last
segment, "." for a bare file name.  Used to state what a path's containing
directory is. -/
def dirnameOf (p : String) : String :=
  let parts := splitOnSlash p
  if parts.length ≤ 1 then "." else joinSegs parts.dropLast

/-- The dirKey computation of scanCodebase (index.js lines 837-838) on a
segment path: path.dirname of the relative path. -/
def dirKeyOf (f : List String) : String :=
  if f.length ≤ 1 then "." else joinSegs f.dropLast

/-! ## Filesystem snapshot and the tree walker -/

/-- A filesystem snapshot: regular files carry their contents. -/
inductive FSEntry where
  | file (name : String) (content : String)
  | dir (name : String) (entries : List FSEntry)

mutual
/-- walkDir (index.js lines 557-571), the per-entry step: an entry whose
name is in the skip set contributes nothing (the check runs before the
directory test, so it applies to files as well); a directory contributes
its recursive walk prefixed with its name, a file contributes its name.
Paths are relative segment lists. -/
def walkDirEntry (skip : List String) : FSEntry → List (List String)
  | FSEntry.file n _ => if skip.contains n then [] else [[n]]
  | FSEntry.dir n sub =>
    if skip.contains n then [] else (walkDir skip sub).map (fun p => n :: p)

/-- walkDir (index.js lines 557-571), the entry loop: the results of the
entries in order. -/
def walkDir (skip : List String) : List FSEntry → List (List String)
  | [] => []
  | e :: rest => walkDirEntry skip e ++ walkDir skip rest
end

/-- First file entry with the given name. -/
def findFileContent (m : String) : List FSEntry → Option String
  | [] => none
  | FSEntry.file n c :: es => if m = n then some c else findFileContent m es
  | FSEntry.dir _ _ :: es => findFileContent m es

/-- First directory entry with the given name. -/
def findDirEntries (m : String) : List FSEntry → Option (List FSEntry)
  | [] => none
  | FSEntry.file _ _ :: es => findDirEntries m es
  | FSEntry.dir n sub :: es => if m = n then some sub else findDirEntries m es

/-- fs.readFileSync over the snapshot; a missing path reads as "" (the scan
only reads paths produced by the walk, where this cannot happen). -/
def readFile (es : List FSEntry) : List String → String
  | [] => ""
  | [m] => (findFileContent m es).getD ""
  | m :: rest =>
    match findDirEntries m es with
    | some sub => readFile sub rest
    | none => ""

/-! ## Import extraction patterns

A pattern is modelled by its exec function: given the content and the
current lastIndex it returns the next match as (start, end, first capture),
or none.  An empty capture "" also stands for a capture group that did not
participate in the match (both are falsy in the source's match[1] test). -/

structure RePattern where
  exec : String → Nat → Option (Nat × Nat × String)

/-- The exec loop of extractImports (index.js lines 764-769): after each
match lastIndex becomes the match end, the capture is kept when it is truthy
and not already collected.  JS has no fuel — a zero-length match at
lastIndex loops forever — so the loop is modelled with fuel and `none` means
the loop is still running after `fuel` iterations. -/
def runPattern (p : RePattern) (content : String) : Nat → Nat → List String → Option (List String)
  | 0, _, _ => none
  | fuel + 1, lastIndex, imports =>
    match p.exec content lastIndex with
    | none => some imports
    | some (_, e, cap) =>
      let imports' := if cap ≠ "" && !imports.contains cap then imports ++ [cap] else imports
      runPattern p content fuel e imports'

/-- extractImports (index.js lines 756-773) over an explicit pattern list:
each pattern restarts at index 0 on this file's content (the source clones
the regex per file), the collected list is threaded through the patterns. -/
def extractImportsP (patterns : List RePattern) (content : String) (fuel : Nat) : Option (List String) :=
  patterns.foldl (fun acc p => acc.bind fun imps => runPattern p content fuel 0 imps) (some [])

/-! ### Executable model of the three default JS/TS regexes

These are a direct character-level rendering of DEFAULT_IMPORT_PATTERNS
(index.js lines 745-749).  No theorem in this development depends on their
match behaviour; they exist so that the absent-pattern default of
extractImports is a real definition. -/

def quoteChar : Char := Char.ofNat 39

def dquoteChar : Char := Char.ofNat 34

def isQuoteChar (c : Char) : Bool := c = quoteChar || c = dquoteChar

def isWsChar (c : Char) : Bool :=
  c = ' ' || c = Char.ofNat 9 || c = Char.ofNat 10 || c = Char.ofNat 13 || c = Char.ofNat 12 || c = Char.ofNat 11

def isNlChar (c : Char) : Bool := c = Char.ofNat 10 || c = Char.ofNat 13

/-- Match a literal character sequence, returning the remainder. -/
def litChars : List Char → List Char → Option (List Char)
  | [], cs => some cs
  | l :: ls, c :: cs => if c = l then litChars ls cs else none
  | _ :: _, [] => none

/-- Greedy \s* . -/
def skipWs : List Char → List Char
  | c :: cs => if isWsChar c then skipWs cs else c :: cs
  | [] => []

/-- \s+ : at least one whitespace character, then greedy. -/
def ws1 : List Char → Option (List Char)
  | c :: cs => if isWsChar c then some (skipWs cs) else none
  | [] => none

/-- The quoted part of the default patterns: an opening quote, one or more
non-quote characters (the capture), a closing quote.  Returns the capture
and the remainder. -/
def quotedCapture (cs : List Char) : Option (String × List Char) :=
  match cs with
  | q :: rest =>
    if isQuoteChar q then
      let cap := rest.takeWhile (fun c => !isQuoteChar c)
      match rest.dropWhile (fun c => !isQuoteChar c) with
      | q2 :: rest2 => if cap ≠ [] && isQuoteChar q2 then some (String.mk cap, rest2) else none
      | [] => none
    else none
  | [] => none

/-- Match attempt at a fixed position for require\s*\(\s*[quote]([^quotes]+)[quote]\s*\) .
Returns consumed length and the capture. -/
def matchRequireAt (cs : List Char) : Option (Nat × String) :=
  let n0 := cs.length
  match litChars ("require".toList) cs with
  | none => none
  | some r1 =>
    match skipWs r1 with
    | c :: r2 =>
      if c = '(' then
        match quotedCapture (skipWs r2) with
        | some (cap, r3) =>
          match skipWs r3 with
          | c2 :: r4 => if c2 = ')' then some (n0 - r4.length, cap) else none
          | [] => none
        | none => none
      else none
    | [] => none

/-- The tail \s+from\s+[quote]([^quotes]+)[quote] of the second default
pattern. -/
def matchFromTailAt (cs : List Char) : Option (Nat × String) :=
  let n0 := cs.length
  match ws1 cs with
  | none => none
  | some r1 =>
    match litChars ("from".toList) r1 with
    | none => none
    | some r2 =>
      match ws1 r2 with
      | none => none
      | some r3 =>
        match quotedCapture r3 with
        | some (cap, r4) => some (n0 - r4.length, cap)
        | none => none

/-- Lazy search of the middle .*? of the second default pattern: try the
shortest run of non-newline characters after which the from-tail matches. -/
def lazyDotSearch (cs : List Char) (n0 : Nat) : Nat → Option (Nat × String)
  | 0 => none
  | fuel + 1 =>
    match matchFromTailAt cs with
    | some (len, cap) => some (n0 - cs.length + len, cap)
    | none =>
      match cs with
      | c :: rest => if isNlChar c then none else lazyDotSearch rest n0 fuel
      | [] => none

/-- Match attempt at a fixed position for
(?:import|export)\s+.*?\s+from\s+[quote]([^quotes]+)[quote] — the keyword,
one-or-more whitespace, then the lazy middle ending in the from-tail. -/
def matchImportFromAt (cs : List Char) : Option (Nat × String) :=
  let n0 := cs.length
  let afterKw :=
    match litChars ("import".toList) cs with
    | some r => some r
    | none => litChars ("export".toList) cs
  match afterKw with
  | none => none
  | some r1 =>
    match r1 with
    | c :: r2 =>
      if isWsChar c then lazyDotSearch r2 n0 (r2.length + 1) else none
    | [] => none

/-- Match attempt at a line start for ^import\s+[quote]([^quotes]+)[quote]
(the multiline side-effect import pattern). -/
def matchSideEffectAt (cs : List Char) : Option (Nat × String) :=
  let n0 := cs.length
  match litChars ("import".toList) cs with
  | none => none
  | some r1 =>
    match ws1 r1 with
    | none => none
    | some r2 =>
      match quotedCapture r2 with
      | some (cap, r3) => some (n0 - r3.length, cap)
      | none => none

/-- Scan for the leftmost match at or after position i (the g-flag search);
the fuel covers every remaining position. -/
def scanFromAux (matchAt : List Char → Option (Nat × String)) (cs : List Char) : Nat → Nat → Option (Nat × Nat × String)
  | 0, _ => none
  | fuel + 1, i =>
    match matchAt (cs.drop i) with
    | some (len, cap) => some (i, i + len, cap)
    | none => if i < cs.length then scanFromAux matchAt cs fuel (i + 1) else none

/-- Scan for the leftmost match at or after position i that sits at a line
start (the gm-flag search for a ^-anchored pattern). -/
def scanLinesAux (matchAt : List Char → Option (Nat × String)) (cs : List Char) : Nat → Nat → Option (Nat × Nat × String)
  | 0, _ => none
  | fuel + 1, i =>
    match (if i = 0 || isNlChar (cs.getD (i - 1) ' ') then matchAt (cs.drop i) else none) with
    | some (len, cap) => some (i, i + len, cap)
    | none => if i < cs.length then scanLinesAux matchAt cs fuel (i + 1) else none

/-- DEFAULT_IMPORT_PATTERNS (index.js lines 745-749): require(...), import
or export ... from ..., and side-effect import, in that order. -/
def DEFAULT_IMPORT_PATTERNS : List RePattern :=
  [⟨fun content i => scanFromAux matchRequireAt content.toList (content.length + 1) i⟩,
   ⟨fun content i => scanFromAux matchImportFromAt content.toList (content.length + 1) i⟩,
   ⟨fun content i => scanLinesAux matchSideEffectAt content.toList (content.length + 1) i⟩]

/-- DEFAULT_SKIP_DIRS (index.js lines 528-532). -/
def DEFAULT_SKIP_DIRS : List String :=
  ["node_modules", ".git", ".next", "dist", "build", "_generated", "coverage", ".turbo", ".cache"]

/-- extractImports with the source's default substitution
(importPatterns || DEFAULT_IMPORT_PATTERNS, index.js line 759). -/
def extractImports (content : String) (importPatterns : Option (List RePattern)) (fuel : Nat) : Option (List String) :=
  extractImportsP (importPatterns.getD DEFAULT_IMPORT_PATTERNS) content fuel

/-! ## The import resolver (index.js lines 780-805) -/

/-- The absolute normalized target of a relative import token:
path.resolve(path.dirname(importingFile), importStr), with the importing
file given as segments relative to the base. -/
def resolvedAbsOf (importStr : String) (importingFile base : List String) : List String :=
  normAux (base ++ importingFile.dropLast) (splitOnSlash importStr)

/-- The exact / extension-appended / directory-index cascade of
resolveImportPath (index.js lines 788-804), with the raw relative path as
the final fallback. -/
def resolveCascade (rel : String) (extensions : List String) (sourceFileSet : List String) : String :=
  if sourceFileSet.contains rel then rel
  else
    match extensions.find? (fun ext => sourceFileSet.contains (rel ++ ext)) with
    | some ext => rel ++ ext
    | none =>
      match extensions.find? (fun ext => sourceFileSet.contains (joinRel rel ("index" ++ ext))) with
      | some ext => joinRel rel ("index" ++ ext)
      | none => rel

/-- resolveImportPath (index.js lines 780-805): resolve the token against
the importing file's directory, re-express it relative to the base, return
null when the relative form starts with "..", otherwise run the cascade. -/
def resolveImportPath (importStr : String) (importingFile base : List String)
    (extensions : List String) (sourceFileSet : List String) : Option String :=
  let relSegs := relativeSegs base (resolvedAbsOf importStr importingFile base)
  if escapesBase relSegs then none
  else some (resolveCascade (joinSegs relSegs) extensions sourceFileSet)

/-- Spec-side restatement of the cascade for claim C2, written from the
spec's words: try the exact path, the path with each configured extension
appended, and the path as a directory with an index file of each extension,
in that order; the first candidate in the Source File Set wins, and the
normalized path itself is the fallback. -/
def cascadeSpec (rel : String) (extensions : List String) (sourceFileSet : List String) : String :=
  let candidates :=
    [rel] ++ extensions.map (fun ext => rel ++ ext)
      ++ extensions.map (fun ext => joinRel rel ("index" ++ ext))
  (candidates.find? (fun c => sourceFileSet.contains c)).getD rel

/-! ## The scanner (index.js lines 817-885) -/

/-- The per-file dependency record: internal (resolved-or-raw relative)
targets and external package names, both deduplicated in first-seen order. -/
structure Deps where
  internal : List String
  external : List String
deriving DecidableEq

/-- A scan result: directory tree (dir key to file basenames), source files
(segment paths relative to the base), per-file dependency records, and the
external-package to top-level-directory map. -/
structure ScanResult where
  directoryTree : List (String × List String)
  sourceFiles : List (List String)
  fileDependencies : List (String × Deps)
  externalDeps : List (String × List String)
deriving DecidableEq

/-- Map.get(k).push(v) with insert-if-absent: duplicates in the value list
are kept (the directory tree stores plain arrays). -/
def treePush (m : List (String × List String)) (k v : String) : List (String × List String) :=
  match m with
  | [] => [(k, [v])]
  | (k0, vs) :: rest =>
    if k0 = k then (k0, vs ++ [v]) :: rest
    else (k0, vs) :: treePush rest k v

/-- Map.get(k).add(v) with insert-if-absent: the value collection is a Set,
so v is appended only when absent. -/
def setAdd (m : List (String × List String)) (k v : String) : List (String × List String) :=
  match m with
  | [] => [(k, [v])]
  | (k0, vs) :: rest =>
    if k0 = k then (k0, if vs.contains v then vs else vs ++ [v]) :: rest
    else (k0, vs) :: setAdd rest k v

/-- Map.get on an association list. -/
def mapFind (m : List (String × List String)) (k : String) : Option (List String) :=
  match m with
  | [] => none
  | (k0, vs) :: rest => if k0 = k then some vs else mapFind rest k

/-- Map.get with [] for a missing key — the edge set of a directory. -/
def lookupD (m : List (String × List String)) (k : String) : List String :=
  (mapFind m k).getD []

/-- The import-classification loop of scanCodebase (index.js lines 858-877):
tokens starting with "." go through resolveImportPath and, when resolved,
into the deduplicated internal list; all other tokens contribute their
package name (first segment, first two segments for @-scoped names) to the
deduplicated external list. -/
def processImports (importsList : List String) (importingFile base : List String)
    (extensions : List String) (sourceFileSet : List String) : Deps :=
  importsList.foldl (fun d imp =>
    if strStartsWith imp "." then
      match resolveImportPath imp importingFile base extensions sourceFileSet with
      | some r => if d.internal.contains r then d else { d with internal := d.internal ++ [r] }
      | none => d
    else
      let pkgName :=
        if strStartsWith imp "@" then joinSegs ((splitOnSlash imp).take 2)
        else (splitOnSlash imp).headD ""
      if d.external.contains pkgName then d else { d with external := d.external ++ [pkgName] })
    ⟨[], []⟩

/-- The empty scan returned when no extensions are configured. -/
def emptyScan : ScanResult := ⟨[], [], [], []⟩

/-- The source directory used for externalDeps (index.js lines 872-873):
first path segment, "." for root files. -/
def topDirOfSegs (f : List String) : String :=
  if f.length > 1 then f.headD "" else "."

/-- scanCodebase (index.js lines 817-885) over a filesystem snapshot.  The
result is none when some file's extraction loop fails to finish within
content.length + 1 iterations, which for a real regex only happens in the
zero-length-match case where the JS loop never terminates. -/
def scanCodebase (base : List String) (fsEntries : List FSEntry)
    (extensions : Option (List String)) (importPatterns : Option (List RePattern))
    (skipDirs : Option (List String)) : Option ScanResult :=
  let skip := skipDirs.getD DEFAULT_SKIP_DIRS
  let allFiles := walkDir skip fsEntries
  match extensions with
  | none => some emptyScan
  | some extList =>
    if extList.isEmpty then some emptyScan
    else
      let sourceFiles := allFiles.filter (fun f => extList.contains (extname (f.getLastD "")))
      let directoryTree := sourceFiles.foldl (fun t f => treePush t (dirKeyOf f) (f.getLastD "")) []
      let sourceFileSet := sourceFiles.map joinSegs
      let step := fun (acc : Option (List (String × Deps) × List (String × List String))) f =>
        acc.bind fun fdEd =>
          let content := readFile fsEntries f
          (extractImports content importPatterns (content.length + 1)).map fun imports =>
            let d := processImports imports f base extList sourceFileSet
            let sourceDir := topDirOfSegs f
            let ed := d.external.foldl (fun m pkg => setAdd m pkg sourceDir) fdEd.2
            let fd :=
              if d.internal ≠ [] ∨ d.external ≠ [] then fdEd.1 ++ [(joinSegs f, d)] else fdEd.1
            (fd, ed)
      (sourceFiles.foldl step (some ([], []))).map fun fdEd =>
        ⟨directoryTree, sourceFiles, fdEd.1, fdEd.2⟩

/-! ## Directory dependency graph and mutual dependencies
(formatInterview, index.js lines 1072-1096) -/

/-- The directory-level cross-dependency map (index.js lines 1072-1085):
for each file record, compare the file's top-level directory with each
internal target's top-level directory and record an edge when they differ. -/
def dirDependencies (fds : List (String × Deps)) : List (String × List String) :=
  fds.foldl (fun m fd =>
    let sourceDir := topDirOf fd.1
    fd.2.internal.foldl (fun m imp =>
      let targetDir := topDirOf imp
      if targetDir ≠ sourceDir then setAdd m sourceDir targetDir else m) m) []

/-- The nested mutual-dependency scan (index.js lines 1087-1096) with the
whole graph g in scope for the reverse-edge lookups. -/
def mutualScan (g : List (String × List String)) : List (String × List String) → List (String × String)
  | [] => []
  | (s, ts) :: rest =>
    ts.filterMap (fun t =>
      match mapFind g t with
      | some rev => if rev.contains s && strLt s t then some (s, t) else none
      | none => none) ++ mutualScan g rest

/-- Mutual dependencies: pairs (a, b) with edges both ways, recorded while
iterating the graph, only when the source sorts before the target. -/
def mutualDeps (g : List (String × List String)) : List (String × String) :=
  mutualScan g g

/-- Number of occurrences of a pair in the mutual-dependency list. -/
def countOcc (q : String × String) : List (String × String) → Nat
  | [] => 0
  | x :: xs => (if x = q then 1 else 0) + countOcc q xs

/-! ## Anomaly filtering (index.js lines 916-954) -/

/-- The exclusion test of filterScanResults (index.js lines 919-920): the
path equals an excluded directory or is nested under one. -/
def isExcludedPath (excludeDirs : List String) (relPath : String) : Bool :=
  excludeDirs.any (fun d => relPath = d || strStartsWith relPath (d ++ "/"))

/-- filterScanResults (index.js lines 916-954): with a nonempty exclusion
list, drop excluded directory-tree keys (the root key "." is always kept),
excluded source files and excluded dependency records, and rebuild the
external-package map from the remaining records.  An empty exclusion list
returns the scan unchanged. -/
def filterScanResults (scan : ScanResult) (excludeDirs : List String) : ScanResult :=
  if excludeDirs.isEmpty then scan
  else
    let directoryTree := scan.directoryTree.filter
      (fun e => e.1 = "." || !isExcludedPath excludeDirs e.1)
    let sourceFiles := scan.sourceFiles.filter
      (fun f => !isExcludedPath excludeDirs (joinSegs f))
    let fileDependencies := scan.fileDependencies.filter
      (fun e => !isExcludedPath excludeDirs e.1)
    let externalDeps := fileDependencies.foldl (fun m fd =>
      fd.2.external.foldl (fun m pkg => setAdd m pkg (topDirOf fd.1)) m) []
    ⟨directoryTree, sourceFiles, fileDependencies, externalDeps⟩

/-! ## Alias resolution (claim C4)

Modelled from the spec: the alias-resolution step of the Import Resolver
(spec section 4.3 step 2) is absent from src/ — cli.js passes an aliases
option into scanCodebase and imports DEFAULT_ALIASES from index.js, but
index.js neither accepts the option nor defines the constant.  The
definitions below follow the spec's words. -/

/-- Keep whichever of two alias mappings has the longer prefix; ties keep
the earlier one. -/
def pickLonger (best : Option (String × String)) (a : String × String) : Option (String × String) :=
  match best with
  | none => some a
  | some b => if a.1.length > b.1.length then some a else some b

/-- Modelled from the spec: test each alias prefix, longest first, for a
literal-prefix match on the token; ties keep the earlier mapping.  Returns
the winning (prefix, target-directory) mapping. -/
def longestMatchingAlias (tok : String) (aliases : List (String × String)) : Option (String × String) :=
  (aliases.filter (fun a => strStartsWith tok a.1)).foldl pickLonger none

/-- Modelled from the spec: on the winning alias, strip the prefix, join the
remainder onto the alias's target directory, discard the token when the
mapped path escapes the base, otherwise run the identical
exact/extension/index cascade with the mapped path as fallback.  none means
no alias prefix matched and the token falls through to the external case. -/
def resolveAliasImport (tok : String) (aliases : List (String × String))
    (extensions : List String) (sourceFileSet : List String) : Option String :=
  match longestMatchingAlias tok aliases with
  | none => none
  | some pt =>
    let remainder := tok.drop pt.1.length
    let mappedSegs := normAux [] (splitOnSlash pt.2 ++ splitOnSlash remainder)
    if escapesBase mappedSegs then none
    else some (resolveCascade (joinSegs mappedSegs) extensions sourceFileSet)

/-! ## Claim-side tree-walk predicates (claim C9) -/

mutual
/-- One entry of the walk's reachability as the code implements it: a path
reaches a regular file through this entry, and no name on the path — the
file's own name included — is in the skip set. -/
def codeReachEntry (skip : List String) : FSEntry → List String → Bool
  | FSEntry.file n _, [m] => decide (m = n) && !skip.contains m
  | FSEntry.file _ _, _ => false
  | FSEntry.dir n sub, m :: rest =>
    decide (m = n) && !skip.contains m && codeReachList skip sub rest
  | FSEntry.dir _ _, [] => false

/-- The walk's reachability as the code implements it, over an entry list. -/
def codeReachList (skip : List String) : List FSEntry → List String → Bool
  | [], _ => false
  | e :: es, p => codeReachEntry skip e p || codeReachList skip es p
end

mutual
/-- One entry of the walk's reachability as claim C9 states it: skip
matching prunes directories at every depth but never applies to the file
itself. -/
def claimReachEntry (skip : List String) : FSEntry → List String → Bool
  | FSEntry.file n _, [m] => decide (m = n)
  | FSEntry.file _ _, _ => false
  | FSEntry.dir n sub, m :: rest =>
    decide (m = n) && !skip.contains m && claimReachList skip sub rest
  | FSEntry.dir _ _, [] => false

/-- The walk's reachability as claim C9 states it, over an entry list. -/
def claimReachList (skip : List String) : List FSEntry → List String → Bool
  | [], _ => false
  | e :: es, p => claimReachEntry skip e p || claimReachList skip es p
end

/-! ## Claim-side extraction views (claims C5 and C10) -/

/-- All first-capture values of the non-overlapping matches of one pattern
from a given index, with the same fuel convention as runPattern. -/
def allCaptures (p : RePattern) (content : String) : Nat → Nat → Option (List String)
  | 0, _ => none
  | fuel + 1, i =>
    match p.exec content i with
    | none => some []
    | some (_, e, cap) => (allCaptures p content fuel e).map (fun caps => cap :: caps)

/-- The concatenated capture streams of the patterns in configured order,
each starting at index 0. -/
def collectCaptures (patterns : List RePattern) (content : String) (fuel : Nat) : Option (List String) :=
  patterns.foldl (fun acc p => acc.bind fun l => (allCaptures p content fuel 0).map (fun caps => l ++ caps)) (some [])

/-- Order-preserving deduplication, exactly as claim C5 words it: every
capture value is kept at its first occurrence. -/
def dedupKeepFirst (l : List String) : List String :=
  l.foldl (fun acc c => if acc.contains c then acc else acc ++ [c]) []

/-- What the code actually keeps: order-preserving deduplication that also
drops falsy (empty) captures. -/
def dedupStep (acc : List String) (c : String) : List String :=
  if c ≠ "" && !acc.contains c then acc ++ [c] else acc

/-- Order-preserving deduplication of the truthy captures. -/
def dedupKeepFirstNonempty (l : List String) : List String :=
  l.foldl dedupStep []

/-- A pattern with a zero-length match at every position (the shape of a
global regex that can match the empty string, e.g. a lone optional group):
exec returns the same zero-length match without advancing lastIndex. -/
def emptyMatchPat : RePattern :=
  ⟨fun _ i => some (i, i, "x")⟩

/-- A pattern that never matches — the simplest well-behaved pattern, used
to instantiate termination statements. -/
def neverMatchPat : RePattern :=
  ⟨fun _ _ => none⟩

/-- A pattern matching the whole content "ab" once with an empty first
capture — the shape of a real regex such as ab(c*) applied to "ab". -/
def emptyCapturePat : RePattern :=
  ⟨fun content i => if content = "ab" ∧ i = 0 then some (0, 2, "") else none⟩

/-! ## Helper lemmas -/

theorem escapesBase_climb (base target : List String)
    (h : (dropCommon base target).1 ≠ []) :
    escapesBase (relativeSegs base target) = true := by
  obtain ⟨a, as, hp⟩ : ∃ a as, (dropCommon base target).1 = a :: as := by
    cases hq : (dropCommon base target).1 with
    | nil => exact absurd hq h
    | cons a as => exact ⟨a, as, rfl⟩
  simp only [relativeSegs, hp, List.length_cons, List.replicate_succ, List.cons_append]
  show escapesBase (".." :: _) = true
  simp only [escapesBase]
  decide

theorem foldl_filter_ne {α β : Type} [DecidableEq α] (f : β → α → β) (a : α)
    (hf : ∀ d, f d a = d) :
    ∀ (l : List α) (init : β), (l.filter (fun x => x ≠ a)).foldl f init = l.foldl f init := by
  intro l
  induction l with
  | nil => intro init; rfl
  | cons x xs ih =>
    intro init
    by_cases hx : x = a
    · subst hx
      simpa [hf] using ih init
    · have hd : (decide (x ≠ a)) = true := by simpa using hx
      simp only [List.filter_cons, hd, if_true, List.foldl_cons]
      exact ih (f init x)

theorem resolveCascade_eq_cascadeSpec (rel : String) (exts sfs : List String) :
    resolveCascade rel exts sfs = cascadeSpec rel exts sfs := by
  unfold resolveCascade cascadeSpec
  simp only [List.singleton_append]
  by_cases h0 : sfs.contains rel = true
  · have h0' : (fun c => sfs.contains c) rel = true := h0
    rw [List.find?_append, @List.find?_cons_of_pos _ (fun c => sfs.contains c) rel _ h0']
    simp [h0]
    intro hmem
    exact absurd (by simpa using h0) hmem
  · have h0f : sfs.contains rel = false := by
      cases hc : sfs.contains rel
      · rfl
      · exact absurd hc h0
    have h0' : ¬ (fun c => sfs.contains c) rel = true := h0
    rw [List.find?_append, @List.find?_cons_of_neg _ (fun c => sfs.contains c) rel _ h0',
      List.find?_map, List.find?_map]
    simp only [h0f, Bool.false_eq_true, if_false]
    cases h1 : exts.find? (fun ext => sfs.contains (rel ++ ext)) with
    | some ext =>
      have h1' : exts.find? ((fun c => sfs.contains c) ∘ (fun ext => rel ++ ext)) = some ext := h1
      rw [h1']
      simp
    | none =>
      have h1' : exts.find? ((fun c => sfs.contains c) ∘ (fun ext => rel ++ ext)) = none := h1
      rw [h1']
      cases h2 : exts.find? (fun ext => sfs.contains (joinRel rel ("index" ++ ext))) with
      | some ext =>
        have h2' : exts.find? ((fun c => sfs.contains c) ∘ (fun ext => joinRel rel ("index" ++ ext))) = some ext := h2
        rw [h2']
        simp
      | none =>
        have h2' : exts.find? ((fun c => sfs.contains c) ∘ (fun ext => joinRel rel ("index" ++ ext))) = none := h2
        rw [h2']
        simp

/-! ## Claim C1 -/

/-- C1: a relative import token — one the source routes through
resolveImportPath, i.e. one for which strStartsWith tok "." holds — whose
path, resolved against the importing file's directory and normalized,
climbs above the base directory (the base is not a prefix of the resolved
path) is discarded entirely: resolveImportPath returns none, and removing
the token from a file's extracted import list leaves the file's dependency
record, hence every dependency view and every rendering derived from it,
unchanged. -/
theorem c1_escaping_token_discarded (tok : String) (f base : List String)
    (exts sfs : List String)
    (hrel : strStartsWith tok "." = true)
    (hclimb : (dropCommon base (resolvedAbsOf tok f base)).1 ≠ []) :
    resolveImportPath tok f base exts sfs = none ∧
    ∀ imports : List String,
      processImports (imports.filter (fun i => i ≠ tok)) f base exts sfs =
        processImports imports f base exts sfs := by
  have hesc := escapesBase_climb base (resolvedAbsOf tok f base) hclimb
  have hnone : resolveImportPath tok f base exts sfs = none := by
    simp [resolveImportPath, hesc]
  refine ⟨hnone, ?_⟩
  intro imports
  unfold processImports
  apply foldl_filter_ne
  intro d
  simp [hrel, hnone]

/-- Witness for C1 at the token "../x" imported from the root file a.ts. -/
theorem c1_escaping_token_discarded_witness :
    resolveImportPath "../x" ["a.ts"] ["repo"] [".ts"] ["a.ts"] = none ∧
    processImports (["../x", "react"].filter (fun i => i ≠ "../x")) ["a.ts"] ["repo"] [".ts"] ["a.ts"] =
      processImports ["../x", "react"] ["a.ts"] ["repo"] [".ts"] ["a.ts"] :=
  ⟨(c1_escaping_token_discarded "../x" ["a.ts"] ["repo"] [".ts"] ["a.ts"] (by decide) (by decide)).1,
   (c1_escaping_token_discarded "../x" ["a.ts"] ["repo"] [".ts"] ["a.ts"] (by decide) (by decide)).2 _⟩

/-! ## Claim C2 -/

/-- Counterexample to C2 as stated: the token "./..d" imported from the
root file a.ts normalizes to the path ..d inside the base directory (the
base is a prefix of the resolved path, first conjunct), yet
resolveImportPath returns none rather than the normalized path, because
the source's escape test rel.startsWith("..") also fires on a first
segment that merely begins with two dots. -/
theorem c2_counterexample :
    (dropCommon ["repo"] (resolvedAbsOf "./..d" ["a.ts"] ["repo"])).1 = [] ∧
    resolveImportPath "./..d" ["a.ts"] ["repo"] [".ts"] [] = none := by
  decide

/-- C2 (amended): for every relative import token whose base-relative form
does not begin with the two characters ".." (rather than: whose normalized
path lies inside the base directory — a first segment such as "..d" is
inside the base but still discarded), resolveImportPath returns some result,
namely the first of the exact path, the extension-appended paths and the
directory-index paths found in the source file set, and the normalized
base-relative path itself when none is found; it never returns none. -/
theorem c2_cascade_resolution (tok : String) (f base : List String)
    (exts sfs : List String)
    (h : escapesBase (relativeSegs base (resolvedAbsOf tok f base)) = false) :
    resolveImportPath tok f base exts sfs =
      some (cascadeSpec (joinSegs (relativeSegs base (resolvedAbsOf tok f base))) exts sfs) := by
  simp [resolveImportPath, h, resolveCascade_eq_cascadeSpec]

/-- Witness for C2: the end-to-end example of the claim.  A file named
a/index.ts importing "./util" resolves to a/util.ts when that file is in
the source file set, and to the unresolved path a/util when it is not. -/
theorem c2_cascade_resolution_witness :
    resolveImportPath "./util" ["a", "index.ts"] ["repo"] [".ts"] ["a/index.ts", "a/util.ts"] =
      some "a/util.ts" ∧
    resolveImportPath "./util" ["a", "index.ts"] ["repo"] [".ts"] ["a/index.ts"] =
      some "a/util" :=
  ⟨(c2_cascade_resolution "./util" ["a", "index.ts"] ["repo"] [".ts"] ["a/index.ts", "a/util.ts"]
      (by decide)).trans (by decide),
   (c2_cascade_resolution "./util" ["a", "index.ts"] ["repo"] [".ts"] ["a/index.ts"]
      (by decide)).trans (by decide)⟩

/-! ## Claim C10 -/

theorem runPattern_isSome (p : RePattern) (content : String)
    (hp : ∀ i s e cap, p.exec content i = some (s, e, cap) → i ≤ s ∧ s < e ∧ e ≤ content.length) :
    ∀ (fuel i : Nat) (imports : List String), i ≤ content.length →
      content.length + 1 - i ≤ fuel → (runPattern p content fuel i imports).isSome = true := by
  intro fuel
  induction fuel with
  | zero => intro i imports hi hf; omega
  | succ n ih =>
    intro i imports hi hf
    cases hx : p.exec content i with
    | none => simp [runPattern, hx]
    | some v =>
      obtain ⟨s, e, cap⟩ := v
      obtain ⟨h1, h2, h3⟩ := hp i s e cap hx
      simp only [runPattern, hx]
      exact ih e _ (by omega) (by omega)

theorem extractImportsP_isSome (ps : List RePattern) (content : String)
    (hp : ∀ p ∈ ps, ∀ i s e cap, p.exec content i = some (s, e, cap) →
      i ≤ s ∧ s < e ∧ e ≤ content.length)
    (fuel : Nat) (hf : content.length + 1 ≤ fuel) :
    (extractImportsP ps content fuel).isSome = true := by
  suffices h : ∀ qs : List RePattern,
      (∀ p ∈ qs, ∀ i s e cap, p.exec content i = some (s, e, cap) →
        i ≤ s ∧ s < e ∧ e ≤ content.length) →
      ∀ imps : List String,
        ((qs.foldl (fun acc p => acc.bind fun l => runPattern p content fuel 0 l) (some imps)).isSome = true) by
    exact h ps hp []
  intro qs
  induction qs with
  | nil => intro _ imps; rfl
  | cons q qs ih =>
    intro hq imps
    simp only [List.foldl_cons, Option.some_bind]
    have hs := runPattern_isSome q content (hq q (by simp)) fuel 0 imps (by omega) (by omega)
    cases hr : runPattern q content fuel 0 imps with
    | none => rw [hr] at hs; simp at hs
    | some out =>
      exact ih (fun p hmem => hq p (by simp [hmem])) out

/-- C10: the extraction loop terminates for every content and pattern list
under the precondition that no configured pattern can produce a zero-length
match (every reported match satisfies lastIndex ≤ start < end ≤ length,
so content.length + 1 iterations always suffice); and without that
precondition, a pattern that keeps returning the same zero-length match
without advancing lastIndex makes the loop never terminate — the fuelled
loop reports "still running" (none) for every fuel. -/
theorem c10_extraction_termination :
    (∀ (ps : List RePattern) (content : String),
      (∀ p ∈ ps, ∀ i s e cap, p.exec content i = some (s, e, cap) →
        i ≤ s ∧ s < e ∧ e ≤ content.length) →
      ∀ fuel : Nat, content.length + 1 ≤ fuel →
        (extractImportsP ps content fuel).isSome = true) ∧
    (∀ fuel : Nat, extractImportsP [emptyMatchPat] "abc" fuel = none) := by
  constructor
  · exact fun ps content hp fuel hf => extractImportsP_isSome ps content hp fuel hf
  · intro fuel
    have h : ∀ (fl i : Nat) (imports : List String),
        runPattern emptyMatchPat "abc" fl i imports = none := by
      intro fl
      induction fl with
      | zero => intro i imports; rfl
      | succ n ih =>
        intro i imports
        have hx : emptyMatchPat.exec "abc" i = some (i, i, "x") := rfl
        simp only [runPattern, hx]
        exact ih i _
    simp [extractImportsP, h]

/-- Witness for C10 part one: the never-matching pattern satisfies the
no-zero-length-match precondition vacuously, and extraction on "ab"
finishes within three iterations. -/
theorem c10_extraction_termination_witness :
    (extractImportsP [neverMatchPat] "ab" 3).isSome = true :=
  c10_extraction_termination.1 [neverMatchPat] "ab"
    (by
      intro p hp i s e cap h
      have hp' : p = neverMatchPat := by simpa using hp
      subst hp'
      simp [neverMatchPat] at h) 3 (by decide)

/-! ## Claim C5 -/

theorem foldl_bind_none {γ α : Type} (g : γ → α → Option α) :
    ∀ ps : List γ, ps.foldl (fun acc p => acc.bind fun x => g p x) none = none := by
  intro ps
  induction ps with
  | nil => rfl
  | cons p ps ih => simpa using ih

theorem runPattern_eq_allCaptures (p : RePattern) (content : String) :
    ∀ (fuel i : Nat) (acc : List String),
      runPattern p content fuel i acc =
        (allCaptures p content fuel i).map (fun caps => caps.foldl dedupStep acc) := by
  intro fuel
  induction fuel with
  | zero => intro i acc; rfl
  | succ n ih =>
    intro i acc
    cases hx : p.exec content i with
    | none => simp [runPattern, allCaptures, hx]
    | some v =>
      obtain ⟨s, e, cap⟩ := v
      simp only [runPattern, allCaptures, hx]
      have hl : (if cap ≠ "" && !acc.contains cap then acc ++ [cap] else acc) = dedupStep acc cap := rfl
      rw [hl, ih e (dedupStep acc cap)]
      cases hc : allCaptures p content n e with
      | none => rfl
      | some caps => simp [List.foldl_cons, dedupStep]

theorem collect_shift (content : String) (fuel : Nat) :
    ∀ (ps : List RePattern) (l : List String),
      ps.foldl (fun acc p => acc.bind fun l0 => (allCaptures p content fuel 0).map (fun caps => l0 ++ caps)) (some l) =
        (collectCaptures ps content fuel).map (fun caps => l ++ caps) := by
  intro ps
  induction ps with
  | nil => intro l; simp [collectCaptures]
  | cons p ps ih =>
    intro l
    have hnone : ∀ qs : List RePattern,
        qs.foldl (fun acc p => acc.bind fun l0 => (allCaptures p content fuel 0).map (fun caps => l0 ++ caps)) none = none :=
      foldl_bind_none (fun p l0 => (allCaptures p content fuel 0).map (fun caps => l0 ++ caps))
    simp only [collectCaptures, List.foldl_cons, Option.some_bind]
    cases hc : allCaptures p content fuel 0 with
    | none =>
      simp only [hc, Option.map_none']
      rw [hnone ps]
      rfl
    | some caps =>
      simp only [hc, Option.map_some', List.nil_append]
      rw [ih (l ++ caps), ih caps]
      cases collectCaptures ps content fuel <;> simp [List.append_assoc]

theorem extractImportsP_eq (ps : List RePattern) (content : String) (fuel : Nat) :
    extractImportsP ps content fuel =
      (collectCaptures ps content fuel).map dedupKeepFirstNonempty := by
  suffices h : ∀ (qs : List RePattern) (acc : List String),
      qs.foldl (fun a p => a.bind fun imps => runPattern p content fuel 0 imps) (some acc) =
        (collectCaptures qs content fuel).map (fun caps => caps.foldl dedupStep acc) by
    have h0 := h ps []
    have h1 : dedupKeepFirstNonempty = fun caps => caps.foldl dedupStep [] := rfl
    rw [extractImportsP, h0, h1]
  intro qs
  induction qs with
  | nil => intro acc; simp [collectCaptures]
  | cons q qs ih =>
    intro acc
    have hnone1 : ∀ rs : List RePattern,
        rs.foldl (fun a p => a.bind fun imps => runPattern p content fuel 0 imps) none = none :=
      foldl_bind_none (fun p imps => runPattern p content fuel 0 imps)
    have hnone2 : ∀ rs : List RePattern,
        rs.foldl (fun acc p => acc.bind fun l => (allCaptures p content fuel 0).map (fun caps => l ++ caps)) none = none :=
      foldl_bind_none (fun p l => (allCaptures p content fuel 0).map (fun caps => l ++ caps))
    simp only [List.foldl_cons, Option.some_bind, collectCaptures]
    rw [runPattern_eq_allCaptures q content fuel 0 acc]
    cases hc : allCaptures q content fuel 0 with
    | none =>
      simp only [hc, Option.map_none']
      rw [hnone1 qs, hnone2 qs]
      rfl
    | some caps =>
      simp only [hc, Option.map_some', List.nil_append]
      rw [ih (caps.foldl dedupStep acc)]
      have hs := collect_shift content fuel qs caps
      rw [hs]
      cases collectCaptures qs content fuel <;> simp [List.foldl_append]

/-- C5 (amended): extractImports returns exactly the truthy (non-empty)
first-capture-group values of all non-overlapping matches, in first-match
order across the patterns applied in configured order, with duplicates
skipped; every pattern stream starts at index zero of this file's own
content, so the result depends on nothing but the content and the
patterns.  (The claim as stated omits that an empty or non-participating
first capture is dropped even on its first occurrence — see the
counterexample.) -/
theorem c5_extraction_order (ps : List RePattern) (content : String) (fuel : Nat) :
    extractImportsP ps content fuel =
      (collectCaptures ps content fuel).map dedupKeepFirstNonempty :=
  extractImportsP_eq ps content fuel

/-- Counterexample to C5 as stated: on content "ab" a pattern shaped like
the regex ab(c*) yields one match whose first capture group is the empty
string; the claim's reading (all first-capture values, deduplicated) keeps
it, the code's truthiness test drops it. -/
theorem c5_counterexample :
    extractImportsP [emptyCapturePat] "ab" 2 = some [] ∧
    (collectCaptures [emptyCapturePat] "ab" 2).map dedupKeepFirst = some [""] ∧
    some ([] : List String) ≠ some [""] :=
  ⟨by decide, by decide, by decide⟩

/-! ## Claim C8 -/

/-- C8 (amended): a missing or empty extension set makes scanCodebase
return the explicitly empty result (empty tree, empty file list, empty
dependency maps) rather than erroring; an absent import-pattern list does
not — extraction falls back to the built-in default patterns and the scan
proceeds (see the counterexample). -/
theorem c8_no_extensions_empty (base : List String) (fs : List FSEntry)
    (pats : Option (List RePattern)) (skip : Option (List String)) :
    scanCodebase base fs none pats skip = some emptyScan ∧
    scanCodebase base fs (some []) pats skip = some emptyScan :=
  ⟨rfl, rfl⟩

/-- Counterexample to C8 as stated: with extensions configured but no
pattern list supplied, the scan of a one-file tree is not the empty
result — the directory tree and source-file list are populated, the
default patterns having been substituted for the missing ones. -/
theorem c8_counterexample :
    scanCodebase ["r"] [FSEntry.file "a.js" ""] (some [".js"]) none none =
      some ⟨[(".", ["a.js"])], [["a.js"]], [], []⟩ ∧
    ([(".", ["a.js"])] : List (String × List String)) ≠ [] :=
  ⟨by decide, by decide⟩

/-! ## Claim C9 -/

mutual
theorem mem_walkDirEntry_iff (skip : List String) (e : FSEntry) (p : List String) :
    p ∈ walkDirEntry skip e ↔ codeReachEntry skip e p = true := by
  cases e with
  | file n c =>
    cases p with
    | nil => by_cases hn : skip.contains n <;> simp [walkDirEntry, codeReachEntry, hn]
    | cons m rest =>
      cases rest with
      | nil =>
        by_cases hn : skip.contains n
        · by_cases hm : m = n
          · subst hm; simp [walkDirEntry, codeReachEntry, hn]
          · simp [walkDirEntry, codeReachEntry, hn, hm]
        · by_cases hm : m = n
          · subst hm; simp [walkDirEntry, codeReachEntry, hn]
          · simp [walkDirEntry, codeReachEntry, hn, hm]
      | cons r rrest =>
        by_cases hn : skip.contains n <;> simp [walkDirEntry, codeReachEntry, hn]
  | dir n sub =>
    cases p with
    | nil => by_cases hn : skip.contains n <;> simp [walkDirEntry, codeReachEntry, hn]
    | cons m rest =>
      by_cases hn : skip.contains n
      · by_cases hm : m = n
        · subst hm
          simp [walkDirEntry, codeReachEntry, hn]
          intro hm'
          exact absurd (by simpa using hn) hm'
        · simp [walkDirEntry, codeReachEntry, hn, hm]
          intro _ _ he
          exact hm he.symm
      · by_cases hm : m = n
        · subst hm
          simp [walkDirEntry, codeReachEntry, hn, mem_walkDir_iff skip sub rest]
        · simp [walkDirEntry, codeReachEntry, hn, hm]
          intro _ _ he
          exact hm he.symm

theorem mem_walkDir_iff (skip : List String) (es : List FSEntry) (p : List String) :
    p ∈ walkDir skip es ↔ codeReachList skip es p = true := by
  cases es with
  | nil => simp [walkDir, codeReachList]
  | cons e es =>
    simp [walkDir, codeReachList, List.mem_append,
      mem_walkDirEntry_iff skip e p, mem_walkDir_iff skip es p]
end

/-- C9 (amended): walkDir returns exactly the regular-file paths reachable
without crossing any entry whose basename is in the skip set — skip
matching is by basename only, applied at every depth, and it applies to
every directory entry and to the files themselves (the claim's exemption
for files does not hold, see the counterexample): a path is in the walk
exactly when each directory on it is a real directory not in the skip set
and the final segment is a real file whose own name is also not in the
skip set. -/
theorem c9_walk_membership (skip : List String) (es : List FSEntry) (p : List String) :
    p ∈ walkDir skip es ↔ codeReachList skip es p = true :=
  mem_walkDir_iff skip es p

/-- Counterexample to C9 as stated: a regular file named "skipme" at the
root, with "skipme" in the skip set, lies under no skipped directory and
is reachable on the claim's reading (skipping applies to directory names,
not files), yet walkDir omits it. -/
theorem c9_counterexample :
    claimReachList ["skipme"] [FSEntry.file "skipme" ""] ["skipme"] = true ∧
    ["skipme"] ∉ walkDir ["skipme"] [FSEntry.file "skipme" ""] :=
  ⟨by decide, by decide⟩

/-! ## Claim C3 -/

theorem mem_lookupD_setAdd (k v a b : String) :
    ∀ m : List (String × List String),
      (b ∈ lookupD (setAdd m k v) a ↔ b ∈ lookupD m a ∨ (a = k ∧ b = v)) := by
  intro m
  induction m with
  | nil =>
    by_cases hak : a = k
    · subst hak
      simp [setAdd, lookupD, mapFind]
    · have hka : ¬ k = a := fun h => hak h.symm
      simp [setAdd, lookupD, mapFind, hka, hak]
  | cons e rest ih =>
    obtain ⟨k0, vs⟩ := e
    by_cases h0 : k0 = k
    · subst h0
      by_cases hak : a = k0
      · subst hak
        have hsa : setAdd ((a, vs) :: rest) a v =
            (a, if vs.contains v then vs else vs ++ [v]) :: rest := by
          simp [setAdd]
        rw [hsa]
        have l1 : ∀ ws : List String, lookupD ((a, ws) :: rest) a = ws := by
          intro ws; simp [lookupD, mapFind]
        rw [l1, l1]
        by_cases hv : vs.contains v
        · have hv' : v ∈ vs := by simpa using hv
          rw [if_pos hv]
          constructor
          · exact fun h => Or.inl h
          · rintro (h | ⟨-, h⟩)
            · exact h
            · subst h; exact hv'
        · rw [if_neg hv]
          simp [List.mem_append]
      · have hka : ¬ k0 = a := fun h => hak h.symm
        simp [setAdd, lookupD, mapFind, hka, hak]
    · by_cases hak : a = k0
      · subst hak
        have h0' : ¬ a = k := h0
        simp [setAdd, lookupD, mapFind, h0, h0']
      · have hka : ¬ k0 = a := fun h => hak h.symm
        simp only [setAdd, if_neg h0]
        simp only [lookupD, mapFind, if_neg hka]
        exact ih

theorem mem_lookupD_innerFold (sd a b : String) :
    ∀ (l : List String) (m : List (String × List String)),
      (b ∈ lookupD (l.foldl (fun m imp =>
          let targetDir := topDirOf imp
          if targetDir ≠ sd then setAdd m sd targetDir else m) m) a ↔
        b ∈ lookupD m a ∨ (a = sd ∧ ∃ imp ∈ l, topDirOf imp = b ∧ b ≠ sd)) := by
  intro l
  induction l with
  | nil => intro m; simp
  | cons imp l ih =>
    intro m
    simp only [List.foldl_cons]
    by_cases ht : topDirOf imp ≠ sd
    · rw [if_pos ht, ih (setAdd m sd (topDirOf imp)), mem_lookupD_setAdd]
      constructor
      · rintro (⟨h | ⟨ha, hb⟩⟩ | ⟨ha, i, hi, hib, hbs⟩)
        · exact Or.inl h
        · exact Or.inr ⟨ha, imp, by simp, by rw [hb], by rw [hb]; exact ht⟩
        · exact Or.inr ⟨ha, i, by simp [hi], hib, hbs⟩
      · rintro (h | ⟨ha, i, hi, hib, hbs⟩)
        · exact Or.inl (Or.inl h)
        · rcases List.mem_cons.mp hi with hi | hi
          · subst hi
            exact Or.inl (Or.inr ⟨ha, hib.symm⟩)
          · exact Or.inr ⟨ha, i, hi, hib, hbs⟩
    · rw [if_neg ht]
      push_neg at ht
      rw [ih m]
      constructor
      · rintro (h | ⟨ha, i, hi, hib, hbs⟩)
        · exact Or.inl h
        · exact Or.inr ⟨ha, i, by simp [hi], hib, hbs⟩
      · rintro (h | ⟨ha, i, hi, hib, hbs⟩)
        · exact Or.inl h
        · rcases List.mem_cons.mp hi with hi | hi
          · subst hi
            exact absurd (ht ▸ hib : sd = b) (fun h => hbs h.symm)
          · exact Or.inr ⟨ha, i, hi, hib, hbs⟩

theorem mem_lookupD_outerFold (a b : String) :
    ∀ (l : List (String × Deps)) (m : List (String × List String)),
      (b ∈ lookupD (l.foldl (fun m fd =>
          let sourceDir := topDirOf fd.1
          fd.2.internal.foldl (fun m imp =>
            let targetDir := topDirOf imp
            if targetDir ≠ sourceDir then setAdd m sourceDir targetDir else m) m) m) a ↔
        b ∈ lookupD m a ∨
          ∃ fd ∈ l, topDirOf fd.1 = a ∧ ∃ imp ∈ fd.2.internal, topDirOf imp = b ∧ b ≠ a) := by
  intro l
  induction l with
  | nil => intro m; simp
  | cons fd l ih =>
    intro m
    simp only [List.foldl_cons]
    rw [ih, mem_lookupD_innerFold]
    constructor
    · rintro (⟨h | ⟨ha, i, hi, hib, hbs⟩⟩ | ⟨g, hg, hga, i, hi, hib, hba⟩)
      · exact Or.inl h
      · exact Or.inr ⟨fd, by simp, ha.symm, i, hi, hib, ha ▸ hbs⟩
      · exact Or.inr ⟨g, by simp [hg], hga, i, hi, hib, hba⟩
    · rintro (h | ⟨g, hg, hga, i, hi, hib, hba⟩)
      · exact Or.inl (Or.inl h)
      · rcases List.mem_cons.mp hg with hg | hg
        · subst hg
          exact Or.inl (Or.inr ⟨hga.symm, i, hi, hib, hga ▸ hba⟩)
        · exact Or.inr ⟨g, hg, hga, i, hi, hib, hba⟩

/-- Counterexample to C3 as stated: a file a/b/f.js whose sole resolved
target is a/c/g.js has a containing directory (a/b) different from the
target's containing directory (a/c), so the claim requires an edge, yet
the graph is empty — the source compares only the first path segment
(a versus a). -/
theorem c3_counterexample :
    dirnameOf "a/b/f.js" = "a/b" ∧ dirnameOf "a/c/g.js" = "a/c" ∧
    ("a/b" : String) ≠ "a/c" ∧
    dirDependencies [("a/b/f.js", ⟨["a/c/g.js"], []⟩)] = [] :=
  ⟨by decide, by decide, by decide, by decide⟩

/-- C3 (amended): the directory dependency graph has an edge from a to b
exactly when some file record whose top-level directory (first path
segment, "." for root files — not its full containing directory) is a has
a resolved (internal) target whose top-level directory is b with b ≠ a;
raw or external entries never contribute an edge. -/
theorem c3_directory_edges (fds : List (String × Deps)) (a b : String) :
    b ∈ lookupD (dirDependencies fds) a ↔
      ∃ fd ∈ fds, topDirOf fd.1 = a ∧ ∃ imp ∈ fd.2.internal, topDirOf imp = b ∧ b ≠ a := by
  have h := mem_lookupD_outerFold a b fds []
  simp only [dirDependencies]
  rw [h]
  simp [lookupD, mapFind]

/-! ## Claim C6 -/

theorem charsLt_asymm : ∀ xs ys : List Char, charsLt xs ys = true → charsLt ys xs = false := by
  intro xs
  induction xs with
  | nil =>
    intro ys h
    cases ys with
    | nil => simp [charsLt] at h
    | cons b bs => simp [charsLt]
  | cons a as ih =>
    intro ys h
    cases ys with
    | nil => simp [charsLt] at h
    | cons b bs =>
      by_cases hab : a < b
      · have hba : ¬ b < a := lt_asymm hab
        simp [charsLt, hab, hba]
      · by_cases hba : b < a
        · simp [charsLt, hab, hba] at h
        · simp only [charsLt, if_neg hab, if_neg hba] at h
          simp only [charsLt, if_neg hba, if_neg hab]
          exact ih bs h

theorem strLt_asymm (a b : String) (h : strLt a b = true) : strLt b a = false :=
  charsLt_asymm a.toList b.toList h

theorem mem_keys_setAdd (k v x : String) :
    ∀ m : List (String × List String),
      (x ∈ (setAdd m k v).map Prod.fst ↔ x ∈ m.map Prod.fst ∨ x = k) := by
  intro m
  induction m with
  | nil => simp [setAdd]
  | cons e rest ih =>
    obtain ⟨k0, vs⟩ := e
    by_cases h0 : k0 = k
    · subst h0
      have hsa : setAdd ((k0, vs) :: rest) k0 v =
          (k0, if vs.contains v then vs else vs ++ [v]) :: rest := by simp [setAdd]
      rw [hsa]
      simp only [List.map_cons, List.mem_cons]
      tauto
    · simp only [setAdd, if_neg h0, List.map_cons, List.mem_cons]
      rw [ih]
      tauto

theorem keys_nodup_setAdd (k v : String) :
    ∀ m : List (String × List String),
      (m.map Prod.fst).Nodup → ((setAdd m k v).map Prod.fst).Nodup := by
  intro m
  induction m with
  | nil => intro _; simp [setAdd]
  | cons e rest ih =>
    obtain ⟨k0, vs⟩ := e
    intro h
    simp only [List.map_cons, List.nodup_cons] at h
    by_cases h0 : k0 = k
    · subst h0
      have hsa : setAdd ((k0, vs) :: rest) k0 v =
          (k0, if vs.contains v then vs else vs ++ [v]) :: rest := by simp [setAdd]
      rw [hsa]
      simp only [List.map_cons, List.nodup_cons]
      exact h
    · simp only [setAdd, if_neg h0, List.map_cons, List.nodup_cons]
      refine ⟨?_, ih h.2⟩
      rw [mem_keys_setAdd]
      rintro (hm | hm)
      · exact h.1 hm
      · exact h0 hm

theorem values_nodup_setAdd (k v : String) :
    ∀ m : List (String × List String),
      (∀ e ∈ m, e.2.Nodup) → ∀ e ∈ setAdd m k v, e.2.Nodup := by
  intro m
  induction m with
  | nil =>
    intro _ e he
    simp only [setAdd, List.mem_singleton] at he
    subst he
    simp
  | cons e0 rest ih =>
    obtain ⟨k0, vs⟩ := e0
    intro h e he
    by_cases h0 : k0 = k
    · subst h0
      have hsa : setAdd ((k0, vs) :: rest) k0 v =
          (k0, if vs.contains v then vs else vs ++ [v]) :: rest := by simp [setAdd]
      rw [hsa] at he
      rcases List.mem_cons.mp he with h1 | h1
      · subst h1
        by_cases hv : vs.contains v
        · have hvn := h (k0, vs) (List.mem_cons_self _ _)
          have hv2 : v ∈ vs := by simpa using hv
          simpa [hv2] using hvn
        · have hv' : v ∉ vs := by simpa using hv
          have hn : vs.Nodup := by simpa using h (k0, vs) (List.mem_cons_self _ _)
          simp only [hv, Bool.false_eq_true, if_false]
          refine List.Nodup.append hn (by simp) ?_
          intro x hx hx'
          simp only [List.mem_singleton] at hx'
          subst hx'
          exact hv' hx
      · exact h e (List.mem_cons_of_mem _ h1)
    · rw [show setAdd ((k0, vs) :: rest) k v = (k0, vs) :: setAdd rest k v by
        simp [setAdd, h0]] at he
      rcases List.mem_cons.mp he with h1 | h1
      · subst h1
        exact h (k0, vs) (List.mem_cons_self _ _)
      · exact ih (fun e2 he2 => h e2 (List.mem_cons_of_mem _ he2)) e h1

theorem inv_innerFold (sd : String) :
    ∀ (l : List String) (m : List (String × List String)),
      (m.map Prod.fst).Nodup → (∀ e ∈ m, e.2.Nodup) →
      (((l.foldl (fun m imp =>
          let targetDir := topDirOf imp
          if targetDir ≠ sd then setAdd m sd targetDir else m) m).map Prod.fst).Nodup ∧
        ∀ e ∈ l.foldl (fun m imp =>
          let targetDir := topDirOf imp
          if targetDir ≠ sd then setAdd m sd targetDir else m) m, e.2.Nodup) := by
  intro l
  induction l with
  | nil => intro m h1 h2; exact ⟨h1, h2⟩
  | cons imp l ih =>
    intro m h1 h2
    simp only [List.foldl_cons]
    by_cases ht : topDirOf imp ≠ sd
    · rw [if_pos ht]
      exact ih _ (keys_nodup_setAdd _ _ m h1) (values_nodup_setAdd _ _ m h2)
    · rw [if_neg ht]
      exact ih m h1 h2

theorem inv_dirDependencies (fds : List (String × Deps)) :
    (((dirDependencies fds).map Prod.fst).Nodup ∧ ∀ e ∈ dirDependencies fds, e.2.Nodup) := by
  suffices h : ∀ (l : List (String × Deps)) (m : List (String × List String)),
      (m.map Prod.fst).Nodup → (∀ e ∈ m, e.2.Nodup) →
      (((l.foldl (fun m fd =>
          let sourceDir := topDirOf fd.1
          fd.2.internal.foldl (fun m imp =>
            let targetDir := topDirOf imp
            if targetDir ≠ sourceDir then setAdd m sourceDir targetDir else m) m) m).map Prod.fst).Nodup ∧
        ∀ e ∈ l.foldl (fun m fd =>
          let sourceDir := topDirOf fd.1
          fd.2.internal.foldl (fun m imp =>
            let targetDir := topDirOf imp
            if targetDir ≠ sourceDir then setAdd m sourceDir targetDir else m) m) m, e.2.Nodup) by
    exact h fds [] (by simp) (by simp)
  intro l
  induction l with
  | nil => intro m h1 h2; exact ⟨h1, h2⟩
  | cons fd l ih =>
    intro m h1 h2
    simp only [List.foldl_cons]
    obtain ⟨g1, g2⟩ := inv_innerFold (topDirOf fd.1) fd.2.internal m h1 h2
    exact ih _ g1 g2

theorem mem_mutualScan (g : List (String × List String)) (x y : String) :
    ∀ l : List (String × List String),
      ((x, y) ∈ mutualScan g l ↔
        ∃ ts, (x, ts) ∈ l ∧ y ∈ ts ∧
          (∃ rev, mapFind g y = some rev ∧ x ∈ rev) ∧ strLt x y = true) := by
  intro l
  induction l with
  | nil => simp [mutualScan]
  | cons e rest ih =>
    obtain ⟨s, ts⟩ := e
    simp only [mutualScan, List.mem_append, ih, List.mem_filterMap]
    constructor
    · rintro (⟨t, hts, hft⟩ | ⟨ts', h1, h2, h3, h4⟩)
      · cases hf : mapFind g t with
        | none => simp only [hf] at hft; simp at hft
        | some rev =>
          simp only [hf] at hft
          by_cases hc : rev.contains s && strLt s t
          · rw [if_pos hc] at hft
            simp only [Option.some.injEq, Prod.mk.injEq] at hft
            obtain ⟨hx, hy⟩ := hft
            subst hx; subst hy
            have hc' := hc
            simp only [Bool.and_eq_true] at hc'
            exact ⟨ts, by simp, hts, ⟨rev, hf, by simpa using hc'.1⟩, hc'.2⟩
          · rw [if_neg hc] at hft
            exact absurd hft (by simp)
      · exact ⟨ts', List.mem_cons_of_mem _ h1, h2, h3, h4⟩
    · rintro ⟨ts', h1, h2, h3, h4⟩
      rcases List.mem_cons.mp h1 with h1 | h1
      · have h1' : (s, ts) = (x, ts') := h1.symm
        simp only [Prod.mk.injEq] at h1'
        obtain ⟨hx, hts'⟩ := h1'
        subst hx
        subst hts'
        obtain ⟨rev, hf, hrev⟩ := h3
        refine Or.inl ⟨y, h2, ?_⟩
        simp only [hf]
        rw [if_pos (by simp [hrev, h4])]
      · exact Or.inr ⟨ts', h1, h2, h3, h4⟩

theorem nodup_mutualScan (g : List (String × List String)) :
    ∀ l : List (String × List String),
      (l.map Prod.fst).Nodup → (∀ e ∈ l, e.2.Nodup) → (mutualScan g l).Nodup := by
  intro l
  induction l with
  | nil => intro _ _; simp [mutualScan]
  | cons e rest ih =>
    obtain ⟨s, ts⟩ := e
    intro h1 h2
    simp only [List.map_cons, List.nodup_cons] at h1
    have hts : ts.Nodup := by simpa using h2 (s, ts) (by simp)
    rw [mutualScan]
    apply List.Nodup.append
    · apply List.Nodup.filterMap _ hts
      intro t1 t2 p hp1 hp2
      have key : ∀ t q, q ∈ (match mapFind g t with
          | some rev => if rev.contains s && strLt s t then some (s, t) else none
          | none => none) → q.2 = t := by
        intro t q hq
        cases hf : mapFind g t with
        | none => simp only [hf] at hq; simp at hq
        | some rev =>
          simp only [hf] at hq
          by_cases hc : rev.contains s && strLt s t
          · rw [if_pos hc] at hq
            simp only [Option.mem_def, Option.some.injEq] at hq
            rw [← hq]
          · rw [if_neg hc] at hq; simp at hq
      have e1 := key t1 p hp1
      have e2 := key t2 p hp2
      rw [← e1, ← e2]
    · exact ih h1.2 (fun e' he' => h2 e' (by simp [he']))
    · intro p hp hp'
      have hfst : p.1 = s := by
        rcases List.mem_filterMap.mp hp with ⟨t, _, hft⟩
        cases hf : mapFind g t with
        | none => simp only [hf] at hft; simp at hft
        | some rev =>
          simp only [hf] at hft
          by_cases hc : rev.contains s && strLt s t
          · rw [if_pos hc] at hft
            simp only [Option.some.injEq] at hft
            rw [← hft]
          · rw [if_neg hc] at hft; simp at hft
      obtain ⟨p1, p2⟩ := p
      obtain ⟨ts', hmem, -⟩ := (mem_mutualScan g p1 p2 rest).mp hp'
      apply h1.1
      rw [← hfst]
      exact List.mem_map.mpr ⟨(p1, ts'), hmem, rfl⟩

theorem mem_entry_iff_lookupD (x y : String) :
    ∀ g : List (String × List String), (g.map Prod.fst).Nodup →
      ((∃ ts, (x, ts) ∈ g ∧ y ∈ ts) ↔ y ∈ lookupD g x) := by
  intro g
  induction g with
  | nil => intro _; simp [lookupD, mapFind]
  | cons e rest ih =>
    obtain ⟨k0, vs⟩ := e
    intro h
    simp only [List.map_cons, List.nodup_cons] at h
    by_cases h0 : k0 = x
    · subst h0
      have l1 : lookupD ((k0, vs) :: rest) k0 = vs := by simp [lookupD, mapFind]
      rw [l1]
      constructor
      · rintro ⟨ts, hmem, hy⟩
        rcases List.mem_cons.mp hmem with hmem | hmem
        · have hmem' : (k0, vs) = (k0, ts) := hmem.symm
          simp only [Prod.mk.injEq] at hmem'
          rw [hmem'.2]
          exact hy
        · exact absurd (List.mem_map.mpr ⟨(k0, ts), hmem, rfl⟩) h.1
      · intro hy
        exact ⟨vs, by simp, hy⟩
    · have l1 : lookupD ((k0, vs) :: rest) x = lookupD rest x := by
        simp [lookupD, mapFind, h0]
      rw [l1, ← ih h.2]
      constructor
      · rintro ⟨ts, hmem, hy⟩
        rcases List.mem_cons.mp hmem with hmem | hmem
        · exact absurd (congrArg Prod.fst hmem).symm h0
        · exact ⟨ts, hmem, hy⟩
      · rintro ⟨ts, hmem, hy⟩
        exact ⟨ts, by simp [hmem], hy⟩

theorem exists_mapFind_iff_lookupD (g : List (String × List String)) (x y : String) :
    (∃ rev, mapFind g y = some rev ∧ x ∈ rev) ↔ x ∈ lookupD g y := by
  cases h : mapFind g y <;> simp [lookupD, h]

theorem countOcc_eq_zero (q : String × String) :
    ∀ l : List (String × String), q ∉ l → countOcc q l = 0 := by
  intro l
  induction l with
  | nil => intro _; rfl
  | cons x xs ih =>
    intro h
    have hx : ¬ x = q := fun he => h (he ▸ List.mem_cons_self _ _)
    simp only [countOcc, if_neg hx, Nat.zero_add]
    exact ih (fun hm => h (List.mem_cons_of_mem _ hm))

theorem countOcc_eq_one (q : String × String) :
    ∀ l : List (String × String), l.Nodup → q ∈ l → countOcc q l = 1 := by
  intro l
  induction l with
  | nil => intro _ h; simp at h
  | cons x xs ih =>
    intro hnd hq
    rcases List.mem_cons.mp hq with hq | hq
    · subst hq
      have hnot : q ∉ xs := (List.nodup_cons.mp hnd).1
      simp [countOcc, countOcc_eq_zero q xs hnot]
    · have hx : ¬ x = q := by
        intro he
        subst he
        exact (List.nodup_cons.mp hnd).1 hq
      simp only [countOcc, if_neg hx, Nat.zero_add]
      exact ih (List.nodup_cons.mp hnd).2 hq

theorem countOcc_pos_mem (q : String × String) :
    ∀ l : List (String × String), countOcc q l = 1 → q ∈ l := by
  intro l
  induction l with
  | nil => intro h; simp [countOcc] at h
  | cons x xs ih =>
    intro h
    by_cases hx : x = q
    · subst hx
      exact List.mem_cons_self _ _
    · simp only [countOcc, if_neg hx, Nat.zero_add] at h
      exact List.mem_cons_of_mem _ (ih h)

/-- C6: for distinct directories a and b with a before b in the JS string
order, the mutual-dependency report over the directory dependency graph of
any file-dependency set lists the pair (a, b) exactly once — its count is
one — precisely when the graph has both the edge a to b and the edge b to
a, and the reversed pair (b, a) is never listed. -/
theorem c6_mutual_once (fds : List (String × Deps)) (a b : String)
    (hab : strLt a b = true) :
    (countOcc (a, b) (mutualDeps (dirDependencies fds)) = 1 ↔
      (b ∈ lookupD (dirDependencies fds) a ∧ a ∈ lookupD (dirDependencies fds) b)) ∧
    (b, a) ∉ mutualDeps (dirDependencies fds) := by
  obtain ⟨hkeys, hvals⟩ := inv_dirDependencies fds
  have hmem : ∀ x y : String,
      ((x, y) ∈ mutualDeps (dirDependencies fds) ↔
        y ∈ lookupD (dirDependencies fds) x ∧ x ∈ lookupD (dirDependencies fds) y ∧
          strLt x y = true) := by
    intro x y
    rw [mutualDeps, mem_mutualScan]
    constructor
    · rintro ⟨ts, h1, h2, h3, h4⟩
      exact ⟨(mem_entry_iff_lookupD x y (dirDependencies fds) hkeys).mp ⟨ts, h1, h2⟩,
        (exists_mapFind_iff_lookupD (dirDependencies fds) x y).mp h3, h4⟩
    · rintro ⟨h1, h2, h3⟩
      obtain ⟨ts, hts1, hts2⟩ := (mem_entry_iff_lookupD x y (dirDependencies fds) hkeys).mpr h1
      exact ⟨ts, hts1, hts2, (exists_mapFind_iff_lookupD (dirDependencies fds) x y).mpr h2, h3⟩
  have hnd : (mutualDeps (dirDependencies fds)).Nodup :=
    nodup_mutualScan (dirDependencies fds) (dirDependencies fds) hkeys hvals
  constructor
  · constructor
    · intro hc
      obtain ⟨h1, h2, -⟩ := (hmem a b).mp (countOcc_pos_mem (a, b) _ hc)
      exact ⟨h1, h2⟩
    · rintro ⟨h1, h2⟩
      exact countOcc_eq_one (a, b) _ hnd ((hmem a b).mpr ⟨h1, h2, hab⟩)
  · intro hba
    obtain ⟨-, -, hlt⟩ := (hmem b a).mp hba
    rw [strLt_asymm a b hab] at hlt
    exact absurd hlt (by simp)

/-- Witness for C6 at a concrete two-directory cycle: a/f.ts imports
b/g.ts and b/g.ts imports a/f.ts, so the pair ("a", "b") is reported
exactly once and ("b", "a") is not reported. -/
theorem c6_mutual_once_witness :
    (countOcc ("a", "b") (mutualDeps (dirDependencies
        [("a/f.ts", ⟨["b/g.ts"], []⟩), ("b/g.ts", ⟨["a/f.ts"], []⟩)])) = 1) ∧
    ("b", "a") ∉ mutualDeps (dirDependencies
        [("a/f.ts", ⟨["b/g.ts"], []⟩), ("b/g.ts", ⟨["a/f.ts"], []⟩)]) :=
  ⟨(c6_mutual_once [("a/f.ts", ⟨["b/g.ts"], []⟩), ("b/g.ts", ⟨["a/f.ts"], []⟩)] "a" "b"
      (by decide)).1.mpr ⟨by decide, by decide⟩,
   (c6_mutual_once [("a/f.ts", ⟨["b/g.ts"], []⟩), ("b/g.ts", ⟨["a/f.ts"], []⟩)] "a" "b"
      (by decide)).2⟩

/-! ## Claim C7 -/

/-- Counterexample to C7 as stated: excluding the root "." — a directory
path — leaves the directory-tree key "." in place even though it equals an
excluded directory, because the source keeps the root key unconditionally
(index.js line 925). -/
theorem c7_counterexample :
    isExcludedPath ["."] "." = true ∧
    (filterScanResults ⟨[(".", ["f.js"])], [["f.js"]], [], []⟩ ["."]).directoryTree =
      [(".", ["f.js"])] :=
  ⟨by decide, by decide⟩

/-- C7 (amended): for every scan result and every exclusion list under
which the root "." does not itself count as excluded, filterScanResults is
purely subtractive: the resulting directory tree, source files and
dependency records are exactly the originals with every entry equal to or
nested under an excluded directory removed, so no surviving key or path is
excluded.  The operation is a pure function of its input, so the original
scan value is untouched; with an empty exclusion list it returns its input
unchanged (the filters then keep everything). -/
theorem c7_filter_subtractive (scan : ScanResult) (excl : List String)
    (hroot : isExcludedPath excl "." = false) :
    (filterScanResults scan excl).directoryTree =
      scan.directoryTree.filter (fun e => e.1 = "." || !isExcludedPath excl e.1) ∧
    (filterScanResults scan excl).sourceFiles =
      scan.sourceFiles.filter (fun f => !isExcludedPath excl (joinSegs f)) ∧
    (filterScanResults scan excl).fileDependencies =
      scan.fileDependencies.filter (fun e => !isExcludedPath excl e.1) ∧
    (∀ e ∈ (filterScanResults scan excl).directoryTree, isExcludedPath excl e.1 = false) ∧
    (∀ f ∈ (filterScanResults scan excl).sourceFiles, isExcludedPath excl (joinSegs f) = false) ∧
    (∀ e ∈ (filterScanResults scan excl).fileDependencies, isExcludedPath excl e.1 = false) := by
  have h1 : (filterScanResults scan excl).directoryTree =
      scan.directoryTree.filter (fun e => e.1 = "." || !isExcludedPath excl e.1) := by
    by_cases he : excl.isEmpty
    · have he' : excl = [] := by simpa using he
      subst he'
      simp [filterScanResults, isExcludedPath]
    · simp [filterScanResults, he]
  have h2 : (filterScanResults scan excl).sourceFiles =
      scan.sourceFiles.filter (fun f => !isExcludedPath excl (joinSegs f)) := by
    by_cases he : excl.isEmpty
    · have he' : excl = [] := by simpa using he
      subst he'
      simp [filterScanResults, isExcludedPath]
    · simp [filterScanResults, he]
  have h3 : (filterScanResults scan excl).fileDependencies =
      scan.fileDependencies.filter (fun e => !isExcludedPath excl e.1) := by
    by_cases he : excl.isEmpty
    · have he' : excl = [] := by simpa using he
      subst he'
      simp [filterScanResults, isExcludedPath]
    · simp [filterScanResults, he]
  refine ⟨h1, h2, h3, ?_, ?_, ?_⟩
  · intro e hee
    rw [h1] at hee
    have hp := (List.mem_filter.mp hee).2
    by_cases hd : e.1 = "."
    · rw [hd]; exact hroot
    · simpa [hd] using hp
  · intro f hf
    rw [h2] at hf
    simpa using (List.mem_filter.mp hf).2
  · intro e hee
    rw [h3] at hee
    simpa using (List.mem_filter.mp hee).2

/-- Witness for C7: excluding "vendor" from a concrete scan removes
exactly the vendor entries. -/
theorem c7_filter_subtractive_witness :
    (filterScanResults
        ⟨[("src", ["a.ts"]), ("vendor", ["v.ts"])], [["src", "a.ts"], ["vendor", "v.ts"]],
         [("vendor/v.ts", ⟨[], ["react"]⟩)], [("react", ["vendor"])]⟩
        ["vendor"]).sourceFiles = [["src", "a.ts"]] :=
  ((c7_filter_subtractive
      ⟨[("src", ["a.ts"]), ("vendor", ["v.ts"])], [["src", "a.ts"], ["vendor", "v.ts"]],
       [("vendor/v.ts", ⟨[], ["react"]⟩)], [("react", ["vendor"])]⟩
      ["vendor"] (by decide)).2.1).trans (by decide)

/-! ## Claim C4 -/

theorem pickLonger_spec :
    ∀ (l : List (String × String)) (acc : Option (String × String)) (r : String × String),
      l.foldl pickLonger acc = some r →
      (acc = some r ∨ r ∈ l) ∧ (∀ a ∈ l, a.1.length ≤ r.1.length) ∧
        (∀ b, acc = some b → b.1.length ≤ r.1.length) := by
  intro l
  induction l with
  | nil =>
    intro acc r h
    refine ⟨Or.inl h, by simp, fun b hb => ?_⟩
    rw [hb] at h
    injection h with h
    rw [h]
  | cons a l ih =>
    intro acc r h
    simp only [List.foldl_cons] at h
    obtain ⟨m1, m2, m3⟩ := ih (pickLonger acc a) r h
    have hpick : ∃ c, pickLonger acc a = some c ∧ a.1.length ≤ c.1.length ∧
        (∀ b, acc = some b → b.1.length ≤ c.1.length) ∧ (c = a ∨ acc = some c) := by
      cases acc with
      | none => exact ⟨a, rfl, le_refl _, by simp, Or.inl rfl⟩
      | some b =>
        by_cases hl : a.1.length > b.1.length
        · refine ⟨a, by simp [pickLonger, hl], le_refl _, ?_, Or.inl rfl⟩
          intro b0 hb0
          injection hb0 with hb0
          subst hb0
          omega
        · refine ⟨b, by simp [pickLonger, hl], by omega, ?_, Or.inr rfl⟩
          intro b0 hb0
          injection hb0 with hb0
          subst hb0
          exact le_refl _
    obtain ⟨c, hc1, hc2, hc3, hc4⟩ := hpick
    have hcle : c.1.length ≤ r.1.length := m3 c hc1
    refine ⟨?_, ?_, ?_⟩
    · rcases m1 with m1 | m1
      · rw [hc1] at m1
        injection m1 with m1
        rcases hc4 with h4 | h4
        · exact Or.inr (by rw [← m1, h4]; exact List.mem_cons_self _ _)
        · exact Or.inl (by rw [h4, m1])
      · exact Or.inr (List.mem_cons_of_mem _ m1)
    · intro x hx
      rcases List.mem_cons.mp hx with hx | hx
      · subst hx
        exact le_trans hc2 hcle
      · exact m2 x hx
    · intro b hb
      exact le_trans (hc3 b hb) hcle

/-- C4 (modelled from the spec, the alias resolver being absent from
src/): when an import token matches more than one configured alias prefix,
resolution uses the longest matching prefix — the winning mapping is a
configured one whose prefix the token starts with, and no other matching
prefix is longer; in particular, with "@/" mapped to the root and
"@/components/" mapped to lib/, the token "@/components/Button" resolves
through the "@/components/" mapping — prefix stripped, remainder joined
onto lib/, then the exact/extension/index cascade — and never through the
shorter "@/" mapping. -/
theorem c4_longest_alias :
    (∀ (tok : String) (aliases : List (String × String)) (pt : String × String),
      longestMatchingAlias tok aliases = some pt →
      pt ∈ aliases ∧ strStartsWith tok pt.1 = true ∧
        ∀ a ∈ aliases, strStartsWith tok a.1 = true → a.1.length ≤ pt.1.length) ∧
    (∀ exts sfs : List String,
      resolveAliasImport "@/components/Button" [("@/", ""), ("@/components/", "lib/")] exts sfs =
        some (resolveCascade "lib/Button" exts sfs)) := by
  constructor
  · intro tok aliases pt h
    rw [longestMatchingAlias] at h
    obtain ⟨m1, m2, m3⟩ := pickLonger_spec _ none pt h
    rcases m1 with m1 | m1
    · exact absurd m1 (by simp)
    · have hm := List.mem_filter.mp m1
      exact ⟨hm.1, hm.2, fun a ha hsa => m2 a (List.mem_filter.mpr ⟨ha, hsa⟩)⟩
  · intro exts sfs
    have hl : longestMatchingAlias "@/components/Button" [("@/", ""), ("@/components/", "lib/")] =
        some ("@/components/", "lib/") := by decide
    rw [resolveAliasImport, hl]
    rfl

/-- Witness for C4: the winning prefix for "@/components/Button" is indeed
a literal prefix of the token, and the full alias resolution lands on
lib/Button.ts when that file exists. -/
theorem c4_longest_alias_witness :
    strStartsWith "@/components/Button" "@/components/" = true ∧
    resolveAliasImport "@/components/Button" [("@/", ""), ("@/components/", "lib/")] [".ts"]
        ["lib/Button.ts"] = some "lib/Button.ts" :=
  ⟨(c4_longest_alias.1 "@/components/Button" [("@/", ""), ("@/components/", "lib/")]
      ("@/components/", "lib/") (by decide)).2.1,
   (c4_longest_alias.2 [".ts"] ["lib/Button.ts"]).trans (by decide)⟩

end Archtest
